import Mathlib

/-!
Verification of the legacy hash-order emulator of `specgen2k`
(`src/spec-generator.js`, lines 499–629): the CPython-2 string hash
(`py2Hash64` / `py2Hash32`), the open-addressing dict simulation
(`Py2Dict`), and the reordering entry point (`py2DictOrder`).

Modelling conventions:
* A JS string is a list of its UTF-16 code units (`Key := List ℕ`).
* JS `BigInt` / 32-bit integer arithmetic is carried out on unsigned
  bit patterns (`ℕ` with explicit `% 2^w`); the signed view needed at
  the end of the hash functions is recovered by `toSigned`.  For the
  64-bit hash, the source computes `toSigned((1000003n*x) & MASK) ^ c`
  followed by `& MASK`; on bit patterns this equals the unsigned
  `(((1000003*x) % 2^64) ^^^ c) % 2^64` used here, because BigInt xor
  acts on two's-complement bit patterns.
* The unbounded probe loops of `_findSlot` / `_insertClean` are given
  a fuel parameter and return `Option`; the fuel `14 + size` is proved
  sufficient below (`findSlotAux_some_of_good`, `exists_probe_hit`).
-/

namespace SpecGen

/-- A JS string, as its list of UTF-16 code units (`charCodeAt` values). -/
abbrev Key := List ℕ

/-- Reinterpret the `w`-bit pattern `v % 2^w` as a two's-complement signed
integer, as the source's `toSigned` helper does for `w = 64`. -/
def toSigned (w : ℕ) (v : ℕ) : ℤ :=
  if v % 2 ^ w < 2 ^ (w - 1) then ((v % 2 ^ w : ℕ) : ℤ)
  else ((v % 2 ^ w : ℕ) : ℤ) - 2 ^ w

/-- Function `py2Hash64` (spec-generator.js:507-522): CPython 2.7 string hash,
64-bit variant, computed on unsigned bit patterns with a signed result. -/
def py2Hash64 (s : Key) : ℤ :=
  if s.length = 0 then 0
  else
    let x0 : ℕ := (s.headI * 2 ^ 7) % 2 ^ 64
    let x1 : ℕ := s.foldl (fun x c => (((1000003 * x) % 2 ^ 64) ^^^ c) % 2 ^ 64) x0
    let r : ℤ := toSigned 64 (x1 ^^^ s.length)
    if r = -1 then -2 else r

/-- Function `py2Hash32` (spec-generator.js:527-538): CPython 2.7 string hash,
32-bit variant; JS `Math.imul`, `^` and `<<` act as 32-bit wrapping
operations on bit patterns. -/
def py2Hash32 (s : Key) : ℤ :=
  if s.length = 0 then 0
  else
    let x0 : ℕ := (s.headI * 2 ^ 7) % 2 ^ 32
    let x1 : ℕ := s.foldl (fun x c => ((1000003 * x) % 2 ^ 32) ^^^ (c % 2 ^ 32)) x0
    let r : ℤ := toSigned 32 (x1 ^^^ (s.length % 2 ^ 32))
    if r = -1 then -2 else r

/-- The hash selected by the dict's width flag (`this._hash` in the
constructor, spec-generator.js:546): 64-bit unless `bits === 32`. -/
def hashW (use64 : Bool) (s : Key) : ℤ :=
  if use64 then py2Hash64 s else py2Hash32 s

/-- One slot of the table: the stored key together with its hash
(the `{ key, hash, value }` record; the value payload is irrelevant to
slot layout and is omitted). -/
structure Slot where
  key : Key
  hash : ℤ
deriving DecidableEq

/-- The `Py2Dict` state (spec-generator.js:544-553). -/
structure Py2Dict where
  use64 : Bool
  size : ℕ
  mask : ℕ
  table : List (Option Slot)
  fill : ℕ
  used : ℕ
deriving DecidableEq

/-- The constructor `new Py2Dict(bits)` (spec-generator.js:545-553):
`_use64 = bits !== 32`, capacity 8, empty table. -/
def mkPy2Dict (bits : ℕ) : Py2Dict :=
  { use64 := bits ≠ 32
  , size := 8
  , mask := 7
  , table := List.replicate 8 none
  , fill := 0
  , used := 0 }

/-- A fresh dict with an explicitly chosen width flag (what the
constructor produces once `bits !== 32` has been evaluated). -/
def fresh (u : Bool) : Py2Dict :=
  { use64 := u, size := 8, mask := 7, table := List.replicate 8 none
  , fill := 0, used := 0 }

/-- The unsigned bit pattern of a stored hash, as `_findSlot` computes it:
`hash < 0n ? hash + 2n^64n : hash` in 64-bit mode, `hash >>> 0` in 32-bit
mode; both are the canonical residue of the hash modulo the width. -/
def ubits (use64 : Bool) (h : ℤ) : ℕ :=
  (h % (2 ^ (if use64 then 64 else 32) : ℤ)).toNat

/-- The probe loop of `_findSlot` (spec-generator.js:555-567), with fuel:
stop at an empty slot or a slot holding an equal key, else step to
`((i*5) + perturb + 1) & mask` with `perturb >>= 5`. -/
def findSlotAux (table : List (Option Slot)) (key : Key) (mask : ℕ) :
    ℕ → ℕ → ℕ → Option ℕ
  | _, _, 0 => none
  | i, perturb, fuel + 1 =>
    match table.getD i none with
    | none => some i
    | some s =>
      if s.key = key then some i
      else findSlotAux table key mask ((i * 5 + perturb + 1) &&& mask) (perturb >>> 5) fuel

/-- Method `_findSlot` (spec-generator.js:555-567). -/
def Py2Dict.findSlot (d : Py2Dict) (key : Key) (h : ℤ) : Option ℕ :=
  findSlotAux d.table key d.mask (ubits d.use64 h &&& d.mask) (ubits d.use64 h)
    (14 + d.size)

/-- The probe loop of `_insertClean` (spec-generator.js:598-609), with
fuel: stop at the first empty slot. -/
def insertCleanAux (table : List (Option Slot)) (mask : ℕ) :
    ℕ → ℕ → ℕ → Option ℕ
  | _, _, 0 => none
  | i, perturb, fuel + 1 =>
    match table.getD i none with
    | none => some i
    | some _ => insertCleanAux table mask ((i * 5 + perturb + 1) &&& mask) (perturb >>> 5) fuel

/-- Method `_insertClean` (spec-generator.js:598-609): place `(key, hash)` at the
first empty slot of its probe sequence, incrementing both counters. -/
def Py2Dict.insertClean (d : Py2Dict) (key : Key) (h : ℤ) : Option Py2Dict :=
  match insertCleanAux d.table d.mask (ubits d.use64 h &&& d.mask) (ubits d.use64 h)
      (14 + d.size) with
  | none => none
  | some i => some { d with table := d.table.set i (some ⟨key, h⟩)
                          , fill := d.fill + 1, used := d.used + 1 }

/-- The `while (newSize <= minused) newSize <<= 1` loop of `_resize`
(spec-generator.js:585-586); the extra `ℕ` argument bounds the number of
iterations and `minused + 1` iterations always suffice from start 8. -/
def growLoop (minused : ℕ) : ℕ → ℕ → ℕ
  | s, 0 => s
  | s, fuel + 1 => if s ≤ minused then growLoop minused (s * 2) fuel else s

/-- The new capacity chosen by `_resize`: start at 8, double while
`newSize <= minused`. -/
def growSize (minused : ℕ) : ℕ := growLoop minused 8 (minused + 1)

/-- Method `_resize` (spec-generator.js:583-596): compute `minused`, allocate a
fresh table of the new capacity, reset the counters, then replay every
non-empty slot of the old table in ascending old-index order through
`_insertClean`. -/
def Py2Dict.resize (d : Py2Dict) : Option Py2Dict :=
  let minused := if d.used ≤ 50000 then 4 * d.used else 2 * d.used
  let newSize := growSize minused
  let d0 : Py2Dict :=
    { d with table := List.replicate newSize none, size := newSize
           , mask := newSize - 1, fill := 0, used := 0 }
  d.table.foldlM
    (fun acc slot =>
      match slot with
      | none => some acc
      | some s => acc.insertClean s.key s.hash) d0

/-- Method `set` (spec-generator.js:569-581): hash the key, find its slot; if the
slot is empty, store the entry, bump both counters and resize when
`fill * 3 >= size * 2`; if the slot already holds the key, only the value
payload is updated, so the state is unchanged here. -/
def Py2Dict.set (d : Py2Dict) (key : Key) : Option Py2Dict :=
  let h := hashW d.use64 key
  match d.findSlot key h with
  | none => none
  | some idx =>
    match d.table.getD idx none with
    | none =>
      let d1 : Py2Dict :=
        { d with table := d.table.set idx (some ⟨key, h⟩)
               , fill := d.fill + 1, used := d.used + 1 }
      if d1.size * 2 ≤ d1.fill * 3 then d1.resize else some d1
    | some _ => some d

/-- Method `keys` (spec-generator.js:612-618): the keys of all occupied slots,
scanned from slot 0 upward, skipping empty slots. -/
def Py2Dict.keysList (d : Py2Dict) : List Key :=
  d.table.filterMap (fun slot => slot.map Slot.key)

/-- Function `py2DictOrder` (spec-generator.js:625-629): insert every string in
order into a fresh dict, then read the keys back in slot order. -/
def py2DictOrder (strings : List Key) (bits : ℕ) : Option (List Key) :=
  (strings.foldlM (fun (d : Py2Dict) s => d.set s) (mkPy2Dict bits)).map Py2Dict.keysList

/-! ### Specification-side definitions and proof-side auxiliaries -/

/-- The hash algorithm exactly as §4.1 of the spec words it, generic in the
width `w`: seed `c[0] << 7` truncated, then for each `i` from `0` to `n-1`
`x = (x * 1000003 mod 2^w) xor c[i]` truncated to `w` bits, then
`x = x xor n` read as a `w`-bit two's-complement value, with a final `-1`
remapped to `-2`. -/
def hashSpec (w : ℕ) (s : Key) : ℤ :=
  if s.length = 0 then 0
  else
    let x0 : ℕ := (s.headI * 2 ^ 7) % 2 ^ w
    let x1 : ℕ := s.foldl (fun x c => (((x * 1000003) % 2 ^ w) ^^^ c) % 2 ^ w) x0
    let r : ℤ := toSigned w (x1 ^^^ s.length)
    if r = -1 then -2 else r

/-- The probe sequence of §4.2 for unsigned hash pattern `h`: start at
`h & mask`, then `i := (i*5 + perturb + 1) & mask` where `perturb` begins
at `h` and is shifted right 5 bits per step (so at step `n` it is
`h >>> (5*n)`). -/
def probeSeq (mask h : ℕ) : ℕ → ℕ
  | 0 => h &&& mask
  | n + 1 => (probeSeq mask h n * 5 + h >>> (5 * n) + 1) &&& mask

/-- The value `(5^n - 1) / 4`, the additive constant of the `n`-fold iterate of the
perturb-free probe map `i ↦ 5*i + 1`. -/
def lcgC : ℕ → ℕ
  | 0 => 0
  | n + 1 => 5 * lcgC n + 1

/-- The perturb-free probe map modulo `2^k`. -/
def lcgStep (k x : ℕ) : ℕ := (x * 5 + 1) % 2 ^ k

/-- A slot at which `_findSlot` stops for `key`: empty, or holding `key`. -/
def slotGood (table : List (Option Slot)) (key : Key) (i : ℕ) : Prop :=
  table.getD i none = none ∨ ∃ s, table.getD i none = some s ∧ s.key = key

/-- The first `n` probe positions for pattern `h` are all occupied. -/
def prefixBusy (table : List (Option Slot)) (mask h : ℕ) (n : ℕ) : Prop :=
  ∀ m, m < n → table.getD (probeSeq mask h m) none ≠ none

/-- Open-addressing placement invariant: every stored slot lies on the
probe sequence of its own hash, with all earlier probe positions occupied
(this is what makes lookups find a stored key before any empty slot). -/
def placedOK (u : Bool) (table : List (Option Slot)) (mask : ℕ) : Prop :=
  ∀ j s, table.getD j none = some s →
    ∃ n, probeSeq mask (ubits u s.hash) n = j ∧
      prefixBusy table mask (ubits u s.hash) n

/-- The multiset of keys stored in the table. -/
def keyMS (d : Py2Dict) : Multiset Key :=
  ((d.table.filterMap id).map Slot.key : List Key)

/-- The structural invariant of a `Py2Dict` in width mode `u`. -/
structure Inv (u : Bool) (d : Py2Dict) : Prop where
  use_eq : d.use64 = u
  size_pow : ∃ k, 3 ≤ k ∧ d.size = 2 ^ k
  mask_eq : d.mask = d.size - 1
  len_eq : d.table.length = d.size
  fill_eq : d.fill = (d.table.filterMap id).length
  used_eq : d.used = d.fill
  load_lt : d.fill * 3 < d.size * 2
  nodup : ((d.table.filterMap id).map Slot.key).Nodup
  hash_ok : ∀ s ∈ d.table.filterMap id, s.hash = hashW u s.key
  placed : placedOK u d.table d.mask

/-- States reachable from a fresh dict of width mode `u` by successful
insertions. -/
inductive Reachable (u : Bool) : Py2Dict → Prop
  | init : Reachable u (fresh u)
  | step {d d' : Py2Dict} {key : Key} :
      Reachable u d → d.set key = some d' → Reachable u d'

/-- First-occurrence deduplication (the spec's `dedup`), with an
accumulator of already-seen keys. -/
def dedupSeen (seen : List Key) : List Key → List Key
  | [] => []
  | x :: xs => if x ∈ seen then dedupSeen seen xs else x :: dedupSeen (x :: seen) xs

/-- First-occurrence deduplication of a candidate list. -/
def dedupF (xs : List Key) : List Key := dedupSeen [] xs

/-! ### Full-cycle property of the perturb-free probe map

Once the perturbation has been shifted away, the probe step is the affine
map `i ↦ (i*5 + 1) mod 2^k`, which is a single `2^k`-cycle: its orbit from
any start visits every slot index.  This rests on the fact that the
2-adic valuation of `5^d - 1` is `v₂(d) + 2`. -/

theorem lcgC_spec (n : ℕ) : 4 * lcgC n + 1 = 5 ^ n := by
  induction n with
  | zero => rfl
  | succ n ih =>
      calc 4 * lcgC (n + 1) + 1 = 5 * (4 * lcgC n + 1) := by rw [lcgC]; ring
        _ = 5 * 5 ^ n := by rw [ih]
        _ = 5 ^ (n + 1) := by rw [pow_succ]; ring

theorem lcgStep_iterate (k x : ℕ) (hx : x < 2 ^ k) (n : ℕ) :
    (lcgStep k)^[n] x = (5 ^ n * x + lcgC n) % 2 ^ k := by
  induction n with
  | zero => simp [lcgC, Nat.mod_eq_of_lt hx]
  | succ n ih =>
      rw [Function.iterate_succ_apply', ih, lcgStep]
      have h2 : (5 ^ n * x + lcgC n) * 5 + 1 = 5 ^ (n + 1) * x + lcgC (n + 1) := by
        rw [lcgC, pow_succ]; ring
      rw [← h2]
      have h1 : ((5 ^ n * x + lcgC n) % 2 ^ k * 5 + 1) ≡
          ((5 ^ n * x + lcgC n) * 5 + 1) [MOD 2 ^ k] :=
        ((Nat.mod_modEq _ _).mul_right 5).add_right 1
      simpa [Nat.ModEq] using h1

theorem lcgC_add (a d : ℕ) : lcgC (a + d) = 5 ^ a * lcgC d + lcgC a := by
  have h := lcgC_spec (a + d)
  have ha := lcgC_spec a
  have hd := lcgC_spec d
  rw [pow_add, ← ha, ← hd] at h
  rw [← ha]
  ring_nf at h ⊢
  linarith

theorem five_pow_two_pow (v : ℕ) :
    ∃ u, u % 2 = 1 ∧ 5 ^ (2 ^ v) = 1 + 2 ^ (v + 2) * u := by
  induction v with
  | zero => exact ⟨1, rfl, by norm_num⟩
  | succ v ih =>
      obtain ⟨u, hu, h5⟩ := ih
      refine ⟨u + 2 ^ (v + 1) * u ^ 2, ?_, ?_⟩
      · have e : 2 ^ (v + 1) * u ^ 2 = 2 * (2 ^ v * u ^ 2) := by rw [pow_succ]; ring
        omega
      · have e3 : (2 : ℕ) ^ (v + 1 + 2) = 4 * 2 ^ (v + 1) := by
          rw [pow_add]; ring
        have e2 : (2 : ℕ) ^ (v + 2) = 2 * 2 ^ (v + 1) := by
          rw [pow_succ, pow_succ]; ring
        calc 5 ^ 2 ^ (v + 1) = (5 ^ 2 ^ v) ^ 2 := by
              rw [← pow_mul, pow_succ]
          _ = (1 + 2 ^ (v + 2) * u) ^ 2 := by rw [h5]
          _ = 1 + 2 ^ (v + 1 + 2) * (u + 2 ^ (v + 1) * u ^ 2) := by
              rw [e2, e3]; ring

theorem one_add_pow_mod (t u : ℕ) (m : ℕ) :
    ∃ w, (1 + 2 ^ t * u) ^ m = 1 + 2 ^ t * w ∧ w % 2 ^ t = (m * u) % 2 ^ t := by
  induction m with
  | zero => exact ⟨0, by norm_num⟩
  | succ m ih =>
      obtain ⟨w, hw, hwmod⟩ := ih
      refine ⟨w + u + 2 ^ t * (w * u), ?_, ?_⟩
      · rw [pow_succ, hw]; ring
      · have e1 : (w + u + 2 ^ t * (w * u)) % 2 ^ t = (w + u) % 2 ^ t := by
          rw [mul_comm (2 ^ t) (w * u)]; exact Nat.add_mul_mod_self_right ..
        have e2 : (w + u) % 2 ^ t = (m * u + u) % 2 ^ t :=
          Nat.ModEq.add_right u hwmod
        rw [e1, e2]
        congr 1
        ring

theorem lcgC_two_pow_factor {d : ℕ} (hd : d ≠ 0) :
    ∃ v w, w % 2 = 1 ∧ lcgC d = 2 ^ v * w ∧ 2 ^ v ∣ d := by
  obtain ⟨v, m, hm, rfl⟩ := Nat.exists_eq_pow_mul_and_not_dvd hd 2 (by norm_num)
  obtain ⟨u, hu, h5⟩ := five_pow_two_pow v
  obtain ⟨w, hw, hwmod⟩ := one_add_pow_mod (v + 2) u m
  refine ⟨v, w, ?_, ?_, Dvd.intro m rfl⟩
  · have h2 : (2 : ℕ) ∣ 2 ^ (v + 2) := dvd_pow_self 2 (by omega)
    have e1 : w % 2 = (m * u) % 2 := by
      have := Nat.ModEq.of_dvd h2 (show w ≡ m * u [MOD 2 ^ (v + 2)] from hwmod)
      simpa [Nat.ModEq] using this
    have hm2 : m % 2 = 1 := by omega
    rw [e1, Nat.mul_mod, hm2, hu]
  · have hpow : 5 ^ (2 ^ v * m) = 1 + 2 ^ (v + 2) * w := by
      rw [pow_mul, h5, hw]
    have hspec := lcgC_spec (2 ^ v * m)
    rw [hpow] at hspec
    have e4 : (2 : ℕ) ^ (v + 2) * w = 4 * (2 ^ v * w) := by rw [pow_add]; ring
    rw [e4] at hspec
    omega

theorem lcgC_not_dvd {k d : ℕ} (hd : d ≠ 0) (hlt : d < 2 ^ k) :
    ¬ 2 ^ k ∣ lcgC d := by
  obtain ⟨v, w, hw1, hw2, hdvd⟩ := lcgC_two_pow_factor hd
  intro hk
  have hv : v < k := by
    have h1 : 2 ^ v ≤ d := Nat.le_of_dvd (Nat.pos_of_ne_zero hd) hdvd
    exact (Nat.pow_lt_pow_iff_right (by norm_num)).mp (lt_of_le_of_lt h1 hlt)
  rw [hw2] at hk
  have e : (2 : ℕ) ^ k = 2 ^ v * 2 ^ (k - v) := by
    rw [← pow_add]; congr 1; omega
  rw [e] at hk
  have h2 : 2 ^ (k - v) ∣ w :=
    (mul_dvd_mul_iff_left (a := (2 : ℕ) ^ v) (by positivity)).mp hk
  have h3 : (2 : ℕ) ∣ w := dvd_trans (dvd_pow_self 2 (by omega)) h2
  omega

theorem lcg_iter_injOn (k x : ℕ) (hx : x < 2 ^ k) :
    ∀ {a b : ℕ}, a < 2 ^ k → b < 2 ^ k →
    (lcgStep k)^[a] x = (lcgStep k)^[b] x → a = b := by
  have main : ∀ a b : ℕ, a ≤ b → b < 2 ^ k →
      (lcgStep k)^[a] x = (lcgStep k)^[b] x → a = b := by
    intro a b hab hb heq
    by_contra hne
    have hdpos : b - a ≠ 0 := by omega
    rw [lcgStep_iterate k x hx, lcgStep_iterate k x hx] at heq
    have hbad : b = a + (b - a) := by omega
    have hid : 5 ^ (a + (b - a)) * x + lcgC (a + (b - a)) =
        (5 ^ a * x + lcgC a) + 5 ^ a * (lcgC (b - a) * (4 * x + 1)) := by
      rw [lcgC_add, pow_add, ← lcgC_spec (b - a)]; ring
    rw [hbad, hid] at heq
    have hdvd : 2 ^ k ∣ 5 ^ a * (lcgC (b - a) * (4 * x + 1)) := by
      have hmodeq : (5 ^ a * x + lcgC a) ≡
          (5 ^ a * x + lcgC a) + 5 ^ a * (lcgC (b - a) * (4 * x + 1)) [MOD 2 ^ k] := heq
      have := (Nat.modEq_iff_dvd' (Nat.le_add_right _ _)).mp hmodeq
      simpa using this
    have hcop : Nat.Coprime (2 ^ k) (5 ^ a) :=
      Nat.Coprime.pow _ _ (by decide)
    have hdvd2 : 2 ^ k ∣ lcgC (b - a) * (4 * x + 1) :=
      hcop.dvd_of_dvd_mul_left hdvd
    have hcop2 : Nat.Coprime (2 ^ k) (4 * x + 1) := by
      apply Nat.Coprime.pow_left
      rw [Nat.coprime_two_left, Nat.odd_iff]
      omega
    have hdvd3 : 2 ^ k ∣ lcgC (b - a) := hcop2.dvd_of_dvd_mul_right hdvd2
    exact lcgC_not_dvd hdpos (by omega) hdvd3
  intro a b ha hb heq
  rcases le_total a b with h | h
  · exact main a b h hb heq
  · exact (main b a h ha heq.symm).symm

theorem lcg_iter_surj (k x y : ℕ) (hx : x < 2 ^ k) (hy : y < 2 ^ k) :
    ∃ m, m < 2 ^ k ∧ (lcgStep k)^[m] x = y := by
  classical
  have hmaps : ∀ m, (lcgStep k)^[m] x < 2 ^ k := by
    intro m
    cases m with
    | zero => simpa using hx
    | succ m =>
        rw [Function.iterate_succ_apply']
        exact Nat.mod_lt _ (by positivity)
  have hinj : Set.InjOn (fun m => (lcgStep k)^[m] x) (Finset.range (2 ^ k)) := by
    intro a ha b hb hab
    exact lcg_iter_injOn k x hx (by simpa using ha) (by simpa using hb) hab
  have himg : Finset.image (fun m => (lcgStep k)^[m] x) (Finset.range (2 ^ k)) =
      Finset.range (2 ^ k) := by
    apply Finset.eq_of_subset_of_card_le
    · intro z hz
      obtain ⟨m, _, rfl⟩ := Finset.mem_image.mp hz
      exact Finset.mem_range.mpr (hmaps m)
    · rw [Finset.card_image_of_injOn hinj, Finset.card_range]
  have hy' : y ∈ Finset.range (2 ^ k) := Finset.mem_range.mpr hy
  rw [← himg] at hy'
  obtain ⟨m, hm, hgm⟩ := Finset.mem_image.mp hy'
  exact ⟨m, Finset.mem_range.mp hm, hgm⟩

/-! ### The probe sequence reaches every slot -/

theorem probeSeq_le_mask (mask h : ℕ) (n : ℕ) : probeSeq mask h n ≤ mask := by
  cases n with
  | zero => exact Nat.and_le_right
  | succ n => exact Nat.and_le_right

theorem probeSeq_lt {k : ℕ} (h n : ℕ) : probeSeq (2 ^ k - 1) h n < 2 ^ k := by
  have h1 := probeSeq_le_mask (2 ^ k - 1) h n
  have h2 : 0 < 2 ^ k := Nat.pos_pow_of_pos k (by norm_num)
  omega

theorem shift_dead {h : ℕ} (hh : h < 2 ^ 64) {n : ℕ} (hn : 13 ≤ n) :
    h >>> (5 * n) = 0 := by
  rw [Nat.shiftRight_eq_div_pow]
  apply Nat.div_eq_of_lt
  calc h < 2 ^ 64 := hh
    _ ≤ 2 ^ (5 * n) := Nat.pow_le_pow_right (by norm_num) (by omega)

theorem probeSeq_after (k h : ℕ) (hh : h < 2 ^ 64) (m : ℕ) :
    probeSeq (2 ^ k - 1) h (13 + m) = (lcgStep k)^[m] (probeSeq (2 ^ k - 1) h 13) := by
  induction m with
  | zero => rfl
  | succ m ih =>
      have e : 13 + (m + 1) = (13 + m) + 1 := by omega
      rw [e, probeSeq, ih, Function.iterate_succ_apply',
        shift_dead hh (by omega : 13 ≤ 13 + m), lcgStep,
        Nat.and_pow_two_sub_one_eq_mod]

theorem exists_probe_hit {k : ℕ} (h y : ℕ) (hh : h < 2 ^ 64) (hy : y < 2 ^ k) :
    ∃ n, n < 13 + 2 ^ k ∧ probeSeq (2 ^ k - 1) h n = y := by
  have hstart : probeSeq (2 ^ k - 1) h 13 < 2 ^ k := probeSeq_lt h 13
  obtain ⟨m, hm, heq⟩ := lcg_iter_surj k _ y hstart hy
  exact ⟨13 + m, by omega, by rw [probeSeq_after k h hh m, heq]⟩

theorem ubits_lt (u : Bool) (h : ℤ) : ubits u h < 2 ^ 64 := by
  have h2 : (0 : ℤ) < 2 ^ (if u then 64 else 32) := by cases u <;> norm_num
  have h3 := Int.emod_lt_of_pos h h2
  have h4 := Int.emod_nonneg h (ne_of_gt h2)
  unfold ubits
  cases u with
  | false =>
      simp only [Bool.false_eq_true, if_false] at h3 h4 ⊢
      omega
  | true =>
      simp only [if_true] at h3 h4 ⊢
      omega

/-! ### The probe loops stop at the first good slot -/

theorem findSlotAux_first_good (table : List (Option Slot)) (key : Key) (mask h : ℕ) :
    ∀ fuel t, (∃ n, n < fuel ∧ slotGood table key (probeSeq mask h (t + n))) →
    ∃ j, j < fuel ∧ slotGood table key (probeSeq mask h (t + j)) ∧
      (∀ m, m < j → ¬ slotGood table key (probeSeq mask h (t + m))) ∧
      findSlotAux table key mask (probeSeq mask h t) (h >>> (5 * t)) fuel =
        some (probeSeq mask h (t + j)) := by
  intro fuel
  induction fuel with
  | zero => rintro t ⟨n, hn, -⟩; omega
  | succ fuel ih =>
      rintro t ⟨n, hn, hgood⟩
      by_cases hg : slotGood table key (probeSeq mask h t)
      · refine ⟨0, by omega, by simpa using hg, by omega, ?_⟩
        rcases hg with hnone | ⟨s, hs, hkey⟩
        · simp only [findSlotAux, hnone, Nat.add_zero]
        · simp only [findSlotAux, hs, hkey, if_pos, Nat.add_zero]
      · have hn0 : n ≠ 0 := by
          intro h0; exact hg (by simpa [h0] using hgood)
        obtain ⟨j, hj, hjg, hjmin, hrec⟩ := ih (t + 1)
          ⟨n - 1, by omega, by
            have e : t + 1 + (n - 1) = t + n := by omega
            rw [e]; exact hgood⟩
        refine ⟨j + 1, by omega, ?_, ?_, ?_⟩
        · have e : t + (j + 1) = t + 1 + j := by omega
          rw [e]; exact hjg
        · intro m hm
          cases m with
          | zero => simpa using hg
          | succ m =>
              have e : t + (m + 1) = t + 1 + m := by omega
              rw [e]; exact hjmin m (by omega)
        · obtain ⟨s, hs, hkey⟩ : ∃ s, table.getD (probeSeq mask h t) none = some s
              ∧ ¬ s.key = key := by
            rcases hx : table.getD (probeSeq mask h t) none with - | s
            · exact absurd (Or.inl hx) hg
            · exact ⟨s, rfl, fun hk => hg (Or.inr ⟨s, hx, hk⟩)⟩
          have estep : probeSeq mask h (t + 1) =
              (probeSeq mask h t * 5 + h >>> (5 * t) + 1) &&& mask := rfl
          have eshift : h >>> (5 * (t + 1)) = (h >>> (5 * t)) >>> 5 := by
            rw [Nat.mul_succ, Nat.shiftRight_add]
          simp only [findSlotAux, hs, hkey, if_neg, not_false_iff]
          rw [← estep, ← eshift] at *
          have e2 : t + (j + 1) = t + 1 + j := by omega
          rw [e2]
          exact hrec

theorem insertCleanAux_first_empty (table : List (Option Slot)) (mask h : ℕ) :
    ∀ fuel t, (∃ n, n < fuel ∧ table.getD (probeSeq mask h (t + n)) none = none) →
    ∃ j, j < fuel ∧ table.getD (probeSeq mask h (t + j)) none = none ∧
      (∀ m, m < j → table.getD (probeSeq mask h (t + m)) none ≠ none) ∧
      insertCleanAux table mask (probeSeq mask h t) (h >>> (5 * t)) fuel =
        some (probeSeq mask h (t + j)) := by
  intro fuel
  induction fuel with
  | zero => rintro t ⟨n, hn, -⟩; omega
  | succ fuel ih =>
      rintro t ⟨n, hn, hgood⟩
      rcases hx : table.getD (probeSeq mask h t) none with - | s
      · refine ⟨0, by omega, by simpa using hx, by omega, ?_⟩
        simp only [insertCleanAux, hx, Nat.add_zero]
      · have hn0 : n ≠ 0 := by
          intro h0; rw [h0, Nat.add_zero] at hgood; rw [hx] at hgood; exact Option.noConfusion hgood
        obtain ⟨j, hj, hjg, hjmin, hrec⟩ := ih (t + 1)
          ⟨n - 1, by omega, by
            have e : t + 1 + (n - 1) = t + n := by omega
            rw [e]; exact hgood⟩
        refine ⟨j + 1, by omega, ?_, ?_, ?_⟩
        · have e : t + (j + 1) = t + 1 + j := by omega
          rw [e]; exact hjg
        · intro m hm
          cases m with
          | zero => intro hc; rw [Nat.add_zero, hx] at hc; exact Option.noConfusion hc
          | succ m =>
              have e : t + (m + 1) = t + 1 + m := by omega
              rw [e]; exact hjmin m (by omega)
        · have estep : probeSeq mask h (t + 1) =
              (probeSeq mask h t * 5 + h >>> (5 * t) + 1) &&& mask := rfl
          have eshift : h >>> (5 * (t + 1)) = (h >>> (5 * t)) >>> 5 := by
            rw [Nat.mul_succ, Nat.shiftRight_add]
          simp only [insertCleanAux, hx]
          rw [← estep, ← eshift] at *
          have e2 : t + (j + 1) = t + 1 + j := by omega
          rw [e2]
          exact hrec

/-! ### Table-update helpers -/

theorem getD_set_self (l : List (Option Slot)) (i : ℕ) (a : Option Slot)
    (h : i < l.length) : (l.set i a).getD i none = a := by
  simp [List.getD_eq_getElem?_getD, List.getElem?_set_self, h]

theorem getD_set_ne (l : List (Option Slot)) {i j : ℕ} (a : Option Slot)
    (h : i ≠ j) : (l.set i a).getD j none = l.getD j none := by
  simp [List.getD_eq_getElem?_getD, List.getElem?_set_ne h]

theorem getD_set_ne_none (l : List (Option Slot)) (i : ℕ) (x : Slot) (j : ℕ)
    (h : l.getD j none ≠ none) : (l.set i (some x)).getD j none ≠ none := by
  by_cases hij : i = j
  · subst hij
    by_cases hi : i < l.length
    · rw [getD_set_self l i _ hi]; exact Option.noConfusion
    · rw [List.set_eq_of_length_le (by omega)]; exact h
  · rw [getD_set_ne l _ hij]; exact h

theorem exists_none_of_count_lt :
    ∀ (l : List (Option Slot)), (l.filterMap id).length < l.length →
    ∃ e, e < l.length ∧ l.getD e none = none := by
  intro l
  induction l with
  | nil => intro h; simp at h
  | cons o tl ih =>
      intro h
      cases o with
      | none => exact ⟨0, by simp, rfl⟩
      | some s =>
          simp only [List.filterMap_cons, id, List.length_cons] at h
          obtain ⟨e, he, hnone⟩ := ih (by simpa using h)
          exact ⟨e + 1, by simpa using he, by simpa using hnone⟩

theorem filterMap_set_perm :
    ∀ (l : List (Option Slot)) (i : ℕ) (x : Slot), i < l.length →
    l.getD i none = none →
    ((l.set i (some x)).filterMap id).Perm (x :: l.filterMap id) := by
  intro l
  induction l with
  | nil => intro i x hi _; simp at hi
  | cons o tl ih =>
      intro i x hi hnone
      cases i with
      | zero =>
          have ho : o = none := by simpa using hnone
          subst ho
          simp [List.filterMap_cons]
      | succ i =>
          have hi' : i < tl.length := by simpa using hi
          have hnone' : tl.getD i none = none := by simpa using hnone
          have hperm := ih i x hi' hnone'
          cases o with
          | none => simpa [List.filterMap_cons] using hperm
          | some s =>
              simp only [List.set_cons_succ, List.filterMap_cons, id]
              exact (hperm.cons s).trans (List.Perm.swap x s _)

theorem mem_keysList_iff (d : Py2Dict) (key : Key) :
    key ∈ d.keysList ↔
      ∃ j s, j < d.table.length ∧ d.table.getD j none = some s ∧ s.key = key := by
  constructor
  · intro hmem
    obtain ⟨o, ho, hkey⟩ := List.mem_filterMap.mp hmem
    cases o with
    | none => simp at hkey
    | some s =>
        obtain ⟨j, hj, hget⟩ := List.mem_iff_getElem.mp ho
        refine ⟨j, s, hj, ?_, by simpa using hkey⟩
        rw [List.getD_eq_getElem _ none hj, hget]
  · rintro ⟨j, s, hj, hget, hkey⟩
    apply List.mem_filterMap.mpr
    refine ⟨some s, ?_, by simpa using hkey⟩
    rw [List.getD_eq_getElem _ none hj] at hget
    exact hget ▸ List.getElem_mem hj

theorem keysList_eq_map (d : Py2Dict) :
    d.keysList = (d.table.filterMap id).map Slot.key := by
  unfold Py2Dict.keysList
  induction d.table with
  | nil => rfl
  | cons o tl ih => cases o <;> simp_all [List.filterMap_cons]

/-! ### The growth loop of `_resize` -/

theorem growLoop_gt (m : ℕ) : ∀ f s, m < s * 2 ^ f → m < growLoop m s f := by
  intro f
  induction f with
  | zero => intro s h; simpa [growLoop] using h
  | succ f ih =>
      intro s h
      rw [growLoop]
      by_cases hs : s ≤ m
      · rw [if_pos hs]
        apply ih
        calc m < s * 2 ^ (f + 1) := h
          _ = s * 2 * 2 ^ f := by ring
      · rw [if_neg hs]; omega

theorem growSize_gt (m : ℕ) : m < growSize m := by
  apply growLoop_gt
  have h := Nat.lt_two_pow (m + 1)
  calc m < 8 * (m + 1 + 1) := by omega
    _ ≤ 8 * 2 ^ (m + 1) := by omega

theorem growLoop_pow (m : ℕ) : ∀ f a, ∃ b, a ≤ b ∧ growLoop m (2 ^ a) f = 2 ^ b := by
  intro f
  induction f with
  | zero => intro a; exact ⟨a, le_refl a, rfl⟩
  | succ f ih =>
      intro a
      rw [growLoop]
      by_cases hs : 2 ^ a ≤ m
      · rw [if_pos hs]
        have e : (2 : ℕ) ^ a * 2 = 2 ^ (a + 1) := (pow_succ 2 a).symm
        rw [e]
        obtain ⟨b, hb, heq⟩ := ih (a + 1)
        exact ⟨b, by omega, heq⟩
      · rw [if_neg hs]; exact ⟨a, le_refl a, rfl⟩

theorem growSize_pow (m : ℕ) : ∃ b, 3 ≤ b ∧ growSize m = 2 ^ b := by
  have h8 : (8 : ℕ) = 2 ^ 3 := by norm_num
  unfold growSize
  rw [h8]
  exact growLoop_pow m (m + 1) 3

theorem growLoop_le_pow (m j : ℕ) (hm : m < 2 ^ j) :
    ∀ f a, a ≤ j → growLoop m (2 ^ a) f ≤ 2 ^ j := by
  intro f
  induction f with
  | zero => intro a ha; exact Nat.pow_le_pow_right (by norm_num) ha
  | succ f ih =>
      intro a ha
      rw [growLoop]
      by_cases hs : 2 ^ a ≤ m
      · rw [if_pos hs]
        have haj : a < j := by
          have : (2 : ℕ) ^ a < 2 ^ j := lt_of_le_of_lt hs hm
          exact (Nat.pow_lt_pow_iff_right (by norm_num)).mp this
        have e : (2 : ℕ) ^ a * 2 = 2 ^ (a + 1) := (pow_succ 2 a).symm
        rw [e]
        exact ih (a + 1) (by omega)
      · rw [if_neg hs]; exact Nat.pow_le_pow_right (by norm_num) ha

theorem growSize_le {m j : ℕ} (h3 : 3 ≤ j) (hm : m < 2 ^ j) :
    growSize m ≤ 2 ^ j := by
  have h8 : (8 : ℕ) = 2 ^ 3 := by norm_num
  unfold growSize
  rw [h8]
  exact growLoop_le_pow m j hm (m + 1) 3 h3

/-! ### Placement-invariant preservation -/

theorem prefixBusy_set (table : List (Option Slot)) (mask h : ℕ) (n : ℕ)
    (i : ℕ) (x : Slot) (hb : prefixBusy table mask h n) :
    prefixBusy (table.set i (some x)) mask h n := by
  intro m hm
  exact getD_set_ne_none table i x _ (hb m hm)

theorem placedOK_set (u : Bool) (table : List (Option Slot)) (mask : ℕ)
    (key : Key) (hsh : ℤ) (n : ℕ)
    (hplaced : placedOK u table mask)
    (hlen : probeSeq mask (ubits u hsh) n < table.length)
    (hbusy : prefixBusy table mask (ubits u hsh) n) :
    placedOK u (table.set (probeSeq mask (ubits u hsh) n) (some ⟨key, hsh⟩)) mask := by
  intro j s hs
  by_cases hjj : probeSeq mask (ubits u hsh) n = j
  · subst hjj
    rw [getD_set_self _ _ _ hlen] at hs
    obtain rfl : Slot.mk key hsh = s := by injection hs
    exact ⟨n, rfl, prefixBusy_set _ _ _ _ _ _ hbusy⟩
  · rw [getD_set_ne _ _ hjj] at hs
    obtain ⟨n', h1, h2⟩ := hplaced j s hs
    exact ⟨n', h1, prefixBusy_set _ _ _ _ _ _ h2⟩

/-! ### Success of `_findSlot` and `_insertClean` on tables with room -/

theorem findSlot_success (d : Py2Dict) (key : Key) (h : ℤ) {k : ℕ}
    (hsz : d.size = 2 ^ k) (hm : d.mask = d.size - 1)
    (hlen : d.table.length = d.size)
    (hroom : (d.table.filterMap id).length < d.size) :
    ∃ j, d.findSlot key h = some (probeSeq d.mask (ubits d.use64 h) j) ∧
      slotGood d.table key (probeSeq d.mask (ubits d.use64 h) j) ∧
      ∀ m, m < j → ¬ slotGood d.table key (probeSeq d.mask (ubits d.use64 h) m) := by
  have hmask : d.mask = 2 ^ k - 1 := by rw [hm, hsz]
  obtain ⟨e, he, hnone⟩ := exists_none_of_count_lt d.table (by rw [hlen]; exact hroom)
  have he' : e < 2 ^ k := by rw [hlen, hsz] at he; exact he
  obtain ⟨n, hn, hhit⟩ :=
    exists_probe_hit (ubits d.use64 h) e (ubits_lt d.use64 h) he'
  have hgood : slotGood d.table key (probeSeq d.mask (ubits d.use64 h) n) := by
    rw [hmask, hhit]; exact Or.inl hnone
  obtain ⟨j, hj, hjg, hjmin, hrec⟩ :=
    findSlotAux_first_good d.table key d.mask (ubits d.use64 h) (14 + d.size) 0
      ⟨n, by rw [hsz]; omega, by rwa [Nat.zero_add]⟩
  refine ⟨j, ?_, by simpa using hjg, fun m hm' => by simpa using hjmin m hm'⟩
  unfold Py2Dict.findSlot
  have e0 : ubits d.use64 h &&& d.mask = probeSeq d.mask (ubits d.use64 h) 0 := rfl
  have e1 : ubits d.use64 h = ubits d.use64 h >>> (5 * 0) := by simp
  rw [e0]
  conv_lhs => rw [e1]
  simpa using hrec

theorem insertClean_spec (u : Bool) {k : ℕ} (d : Py2Dict) (key : Key) (hsh : ℤ)
    (huse : d.use64 = u)
    (hsz : d.size = 2 ^ k) (hm : d.mask = d.size - 1)
    (hlen : d.table.length = d.size)
    (hroom : (d.table.filterMap id).length < d.size)
    (hplaced : placedOK u d.table d.mask) :
    ∃ d', d.insertClean key hsh = some d' ∧
      d'.use64 = u ∧ d'.size = d.size ∧ d'.mask = d.mask ∧
      d'.table.length = d.size ∧
      (d'.table.filterMap id).Perm (⟨key, hsh⟩ :: d.table.filterMap id) ∧
      d'.fill = d.fill + 1 ∧ d'.used = d.used + 1 ∧
      placedOK u d'.table d'.mask := by
  subst huse
  have hmask : d.mask = 2 ^ k - 1 := by rw [hm, hsz]
  obtain ⟨e, he, hnone⟩ := exists_none_of_count_lt d.table (by rw [hlen]; exact hroom)
  have he' : e < 2 ^ k := by rw [hlen, hsz] at he; exact he
  obtain ⟨n, hn, hhit⟩ :=
    exists_probe_hit (ubits d.use64 hsh) e (ubits_lt d.use64 hsh) he'
  have hgood : d.table.getD (probeSeq d.mask (ubits d.use64 hsh) n) none = none := by
    rw [hmask, hhit]; exact hnone
  obtain ⟨j, hj, hjg, hjmin, hrec⟩ :=
    insertCleanAux_first_empty d.table d.mask (ubits d.use64 hsh) (14 + d.size) 0
      ⟨n, by rw [hsz]; omega, by rwa [Nat.zero_add]⟩
  simp only [Nat.zero_add] at hjg hjmin hrec
  have hilt : probeSeq d.mask (ubits d.use64 hsh) j < d.table.length := by
    have h1 := probeSeq_le_mask d.mask (ubits d.use64 hsh) j
    have h2 : 0 < 2 ^ k := Nat.pos_pow_of_pos k (by norm_num)
    rw [hlen]; omega
  have haux : insertCleanAux d.table d.mask (ubits d.use64 hsh &&& d.mask)
      (ubits d.use64 hsh) (14 + d.size) = some (probeSeq d.mask (ubits d.use64 hsh) j) := by
    have e1 : ubits d.use64 hsh = ubits d.use64 hsh >>> (5 * 0) := by simp
    conv_lhs => rw [show ubits d.use64 hsh &&& d.mask =
      probeSeq d.mask (ubits d.use64 hsh) 0 from rfl]
    conv_lhs => rw [e1]
    exact hrec
  set i := probeSeq d.mask (ubits d.use64 hsh) j with hidef
  refine ⟨{ d with table := d.table.set i (some ⟨key, hsh⟩), fill := d.fill + 1, used := d.used + 1 }, ?_, rfl, rfl, rfl, ?_, ?_, rfl, rfl, ?_⟩
  · unfold Py2Dict.insertClean
    rw [haux]
  · simpa using hlen
  · exact filterMap_set_perm d.table _ _ hilt hjg
  · exact placedOK_set d.use64 d.table d.mask key hsh j hplaced hilt hjmin

/-! ### The resize replay -/

theorem foldlM_skip_none (f : Py2Dict → Slot → Option Py2Dict) :
    ∀ (l : List (Option Slot)) (acc : Py2Dict),
    List.foldlM (fun a o => match o with | none => some a | some s => f a s) acc l
      = List.foldlM f acc (l.filterMap id) := by
  intro l
  induction l with
  | nil => intro acc; rfl
  | cons o tl ih =>
      intro acc
      cases o with
      | none => simpa [List.foldlM_cons] using ih acc
      | some s =>
          simp only [List.filterMap_cons, id, List.foldlM_cons]
          cases hfa : f acc s with
          | none => rfl
          | some a' => exact ih a'

theorem insertClean_fold (u : Bool) (k : ℕ) :
    ∀ (slots : List Slot) (acc : Py2Dict),
    acc.use64 = u →
    acc.size = 2 ^ k →
    acc.mask = acc.size - 1 →
    acc.table.length = acc.size →
    (acc.table.filterMap id).length + slots.length ≤ acc.size →
    placedOK u acc.table acc.mask →
    ∃ d', List.foldlM (fun a s => a.insertClean s.key s.hash) acc slots = some d' ∧
      d'.use64 = u ∧ d'.size = acc.size ∧ d'.mask = acc.mask ∧
      d'.table.length = acc.size ∧
      (d'.table.filterMap id).Perm (acc.table.filterMap id ++ slots) ∧
      d'.fill = acc.fill + slots.length ∧ d'.used = acc.used + slots.length ∧
      placedOK u d'.table d'.mask := by
  intro slots
  induction slots with
  | nil =>
      intro acc h1 h2 h3 h4 h5 h6
      exact ⟨acc, rfl, h1, rfl, rfl, by rw [h4], by simp, by simp, by simp, h6⟩
  | cons s rest ih =>
      intro acc h1 h2 h3 h4 h5 h6
      obtain ⟨d1, hd1, hu1, hs1, hm1, hl1, hp1, hf1, hus1, hpl1⟩ :=
        insertClean_spec u acc s.key s.hash h1 h2 h3 h4
          (by simp at h5; omega) h6
      have hcount1 : (d1.table.filterMap id).length =
          (acc.table.filterMap id).length + 1 := by
        rw [hp1.length_eq]; simp
      obtain ⟨d', hd', hu', hs', hm', hl', hp', hf', hus', hpl'⟩ :=
        ih d1 hu1 (by rw [hs1]; exact h2) (by rw [hm1, hs1]; exact h3)
          (by rw [hl1, hs1])
          (by rw [hcount1, hs1]; simp at h5 ⊢; omega)
          hpl1
      refine ⟨d', ?_, hu', by rw [hs', hs1], by rw [hm', hm1],
        by rw [hl', hs1], ?_, by rw [hf', hf1]; simp; omega,
        by rw [hus', hus1]; simp; omega, hpl'⟩
      · rw [List.foldlM_cons, hd1]
        exact hd'
      · refine hp'.trans ?_
        have e : (⟨s.key, s.hash⟩ : Slot) = s := rfl
        rw [e] at hp1
        refine ((hp1.append_right rest).trans ?_)
        exact List.perm_middle.symm

theorem resize_spec (u : Bool) (d : Py2Dict)
    (huse : d.use64 = u)
    (hlen : d.table.length = d.size)
    (hused : d.used = (d.table.filterMap id).length) :
    ∃ d', d.resize = some d' ∧
      d'.use64 = u ∧
      d'.size = growSize (if d.used ≤ 50000 then 4 * d.used else 2 * d.used) ∧
      (∃ k', 3 ≤ k' ∧ d'.size = 2 ^ k') ∧
      d'.mask = d'.size - 1 ∧
      d'.table.length = d'.size ∧
      d'.fill = (d.table.filterMap id).length ∧
      d'.used = (d.table.filterMap id).length ∧
      (d'.table.filterMap id).Perm (d.table.filterMap id) ∧
      placedOK u d'.table d'.mask ∧
      2 * d'.fill < d'.size := by
  obtain ⟨k', hk', hpow⟩ :=
    growSize_pow (if d.used ≤ 50000 then 4 * d.used else 2 * d.used)
  have hgt := growSize_gt (if d.used ≤ 50000 then 4 * d.used else 2 * d.used)
  set minused := if d.used ≤ 50000 then 4 * d.used else 2 * d.used with hmin
  set newSize := growSize minused with hns
  have hmin2 : 2 * d.used ≤ minused := by
    rw [hmin]; split <;> omega
  have hcnt : (d.table.filterMap id).length < newSize ∨
      (d.table.filterMap id).length = 0 := by
    rcases Nat.eq_zero_or_pos (d.table.filterMap id).length with h0 | hpos
    · exact Or.inr h0
    · left; omega
  have hcount_lt : (d.table.filterMap id).length ≤ newSize := by
    rcases hcnt with h | h <;> omega
  set d0 : Py2Dict := { d with table := List.replicate newSize none, size := newSize, mask := newSize - 1, fill := 0, used := 0 } with hd0
  have hfm0 : (d0.table.filterMap id) = [] := by
    rw [hd0]
    induction newSize with
    | zero => rfl
    | succ n ihn => simpa [List.replicate_succ, List.filterMap_cons] using ihn
  have hplaced0 : placedOK u d0.table d0.mask := by
    intro j s hs
    exfalso
    rw [hd0] at hs
    simp only [List.getD_eq_getElem?_getD, List.getElem?_replicate] at hs
    split at hs <;> simp_all
  obtain ⟨d', hd', hu', hs', hm', hl', hp', hf', hus', hpl'⟩ :=
    insertClean_fold u k' (d.table.filterMap id) d0 huse (by rw [hd0]; exact hpow)
      (by rw [hd0]) (by rw [hd0]; simp)
      (by rw [hfm0]; simpa using hcount_lt)
      hplaced0
  refine ⟨d', ?_, hu', by rw [hs', hd0], ⟨k', hk', by rw [hs', hd0]; exact hpow⟩,
    by rw [hm', hs', hd0], by rw [hl', hs'], ?_, ?_, ?_, hpl', ?_⟩
  · show d.resize = some d'
    unfold Py2Dict.resize
    rw [foldlM_skip_none]
    exact hd'
  · rw [hf', hd0]; simp
  · rw [hus', hd0]; simp
  · refine hp'.trans ?_
    rw [hfm0]; simp
  · rw [hf', hs', hd0]
    simp only
    omega

/-! ### The effect of one `set` on an invariant-satisfying dict -/

theorem mem_filterMap_of_getD {l : List (Option Slot)} {j : ℕ} {s : Slot}
    (h : l.getD j none = some s) : s ∈ l.filterMap id := by
  have hj : j < l.length := by
    by_contra hj
    rw [List.getD_eq_default _ _ (by omega)] at h
    exact Option.noConfusion h
  rw [List.getD_eq_getElem _ none hj] at h
  exact List.mem_filterMap.mpr ⟨some s, h ▸ List.getElem_mem hj, rfl⟩

theorem set_spec (u : Bool) (d : Py2Dict) (key : Key) (hInv : Inv u d) :
    ∃ d', d.set key = some d' ∧ Inv u d' ∧ d.size ≤ d'.size ∧
      ((key ∈ d.keysList ∧ d' = d) ∨
       (key ∉ d.keysList ∧
         (d'.table.filterMap id).Perm (⟨key, hashW u key⟩ :: d.table.filterMap id) ∧
         d'.fill = d.fill + 1 ∧ d'.used = d.fill + 1 ∧
         (d.size * 2 ≤ (d.fill + 1) * 3 →
            d.size < d'.size ∧
            d'.size = growSize
              (if d.fill + 1 ≤ 50000 then 4 * (d.fill + 1) else 2 * (d.fill + 1))) ∧
         (¬ d.size * 2 ≤ (d.fill + 1) * 3 → d'.size = d.size))) := by
  obtain rfl : d.use64 = u := hInv.use_eq
  obtain ⟨kk, hkk, hszpow⟩ := hInv.size_pow
  have hroom : (d.table.filterMap id).length < d.size := by
    have h1 := hInv.load_lt
    have h2 := hInv.fill_eq
    omega
  obtain ⟨j, hfs, hgood, hmin⟩ :=
    findSlot_success d key (hashW d.use64 key) hszpow hInv.mask_eq hInv.len_eq hroom
  have hszpos : 0 < d.size := by rw [hszpow]; positivity
  have hilt : probeSeq d.mask (ubits d.use64 (hashW d.use64 key)) j < d.table.length := by
    have h1 := probeSeq_le_mask d.mask (ubits d.use64 (hashW d.use64 key)) j
    have h2 := hInv.mask_eq
    rw [hInv.len_eq]
    omega
  by_cases hmem : key ∈ d.keysList
  · -- the key is already stored: `set` only rewrites the value payload
    obtain ⟨jk, sk, hjk, hgetk, hkeyk⟩ := (mem_keysList_iff d key).mp hmem
    have hskmem : sk ∈ d.table.filterMap id := mem_filterMap_of_getD hgetk
    have hhash : sk.hash = hashW d.use64 sk.key := hInv.hash_ok sk hskmem
    obtain ⟨n, hpn, hbusy⟩ := hInv.placed jk sk hgetk
    have hsame : ubits d.use64 sk.hash = ubits d.use64 (hashW d.use64 key) := by
      rw [hhash, hkeyk]
    rw [hsame] at hpn hbusy
    rcases hgood with hempty | ⟨s', hs', hks'⟩
    · exfalso
      have hjn : ¬ n < j := by
        intro hlt
        exact hmin n hlt (Or.inr ⟨sk, by rw [hpn]; exact hgetk, hkeyk⟩)
      rcases Nat.lt_or_ge j n with hlt | hge
      · exact hbusy j hlt hempty
      · have hje : j = n := by omega
        rw [hje, hpn, hgetk] at hempty
        exact Option.noConfusion hempty
    · refine ⟨d, ?_, hInv, le_refl _, Or.inl ⟨hmem, rfl⟩⟩
      show d.set key = some d
      simp only [Py2Dict.set, hfs, hs']
  · -- fresh key: it is stored at the first empty probe slot
    have hempty : d.table.getD (probeSeq d.mask
        (ubits d.use64 (hashW d.use64 key)) j) none = none := by
      rcases hgood with h | ⟨s', hs', hks'⟩
      · exact h
      · exact absurd ((mem_keysList_iff d key).mpr ⟨_, s', hilt, hs', hks'⟩) hmem
    have hbusy : prefixBusy d.table d.mask
        (ubits d.use64 (hashW d.use64 key)) j := by
      intro m hm hc
      exact hmin m hm (Or.inl hc)
    set d1 : Py2Dict := { d with table := d.table.set (probeSeq d.mask (ubits d.use64 (hashW d.use64 key)) j) (some ⟨key, hashW d.use64 key⟩), fill := d.fill + 1, used := d.used + 1 } with hd1
    have hset : d.set key =
        if d.size * 2 ≤ (d.fill + 1) * 3 then d1.resize else some d1 := by
      simp only [Py2Dict.set, hfs, hempty]
    have hperm1 : (d1.table.filterMap id).Perm
        (⟨key, hashW d.use64 key⟩ :: d.table.filterMap id) := by
      rw [hd1]
      exact filterMap_set_perm d.table _ _ hilt hempty
    have hpl1 : placedOK d.use64 d1.table d1.mask := by
      rw [hd1]
      exact placedOK_set d.use64 d.table d.mask key (hashW d.use64 key) j
        hInv.placed hilt hbusy
    have hnodup1 : ((d1.table.filterMap id).map Slot.key).Nodup := by
      rw [List.Perm.nodup_iff (hperm1.map Slot.key)]
      refine List.Nodup.cons ?_ hInv.nodup
      rw [keysList_eq_map] at hmem
      simpa using hmem
    have hhash1 : ∀ s ∈ d1.table.filterMap id, s.hash = hashW d.use64 s.key := by
      intro s hs
      rcases List.mem_cons.mp ((hperm1.mem_iff).mp hs) with h | h
      · rw [h]
      · exact hInv.hash_ok s h
    have hcount1 : (d1.table.filterMap id).length =
        (d.table.filterMap id).length + 1 := by
      rw [hperm1.length_eq]; simp
    have hlen1 : d1.table.length = d1.size := by
      rw [hd1]; simpa using hInv.len_eq
    by_cases htrig : d.size * 2 ≤ (d.fill + 1) * 3
    · -- the insertion triggers a resize
      obtain ⟨d2, hd2, hu2, hs2, hpow2, hm2, hl2, hf2, hus2, hp2, hpl2, hload2⟩ :=
        resize_spec d.use64 d1 rfl hlen1
          (by rw [hd1]; simp only [hcount1]
              rw [hInv.used_eq, hInv.fill_eq])
      have hmle : d.size ≤ (if d1.used ≤ 50000 then 4 * d1.used else 2 * d1.used) := by
        have e : d1.used = d.fill + 1 := by rw [hd1]; simp [hInv.used_eq]
        rw [e]
        split <;> omega
      have hlt2 : d.size < d2.size := by
        have hgt := growSize_gt (if d1.used ≤ 50000 then 4 * d1.used else 2 * d1.used)
        omega
      refine ⟨d2, ?_, ?_, le_of_lt hlt2, Or.inr ⟨hmem, ?_, ?_, ?_, ?_, ?_⟩⟩
      · rw [hset, if_pos htrig]; exact hd2
      · refine ⟨hu2, hpow2, hm2, hl2, ?_, ?_, by omega, ?_, ?_, hpl2⟩
        · rw [hf2, hp2.length_eq]
        · rw [hus2, hf2]
        · rw [List.Perm.nodup_iff ((hp2.map Slot.key))]
          exact hnodup1
        · intro s hs
          exact hhash1 s (hp2.mem_iff.mp hs)
      · exact hp2.trans hperm1
      · rw [hf2, hcount1, hInv.fill_eq]
      · rw [hus2, hcount1, hInv.fill_eq]
      · intro _
        refine ⟨hlt2, ?_⟩
        rw [hs2]
        congr 1
        rw [hd1]
        simp [hInv.used_eq]
      · intro hc; exact absurd htrig hc
    · -- no resize
      refine ⟨d1, ?_, ?_, by rw [hd1], Or.inr ⟨hmem, hperm1, by rw [hd1],
          by rw [hd1]; simp [hInv.used_eq], by intro hc; exact absurd hc htrig,
          fun _ => by rw [hd1]⟩⟩
      · rw [hset, if_neg htrig]
      · refine ⟨by rw [hd1], ⟨kk, hkk, by rw [hd1]; simpa using hszpow⟩,
          by rw [hd1]; simpa using hInv.mask_eq, hlen1, ?_, ?_, ?_, hnodup1, hhash1, hpl1⟩
        · rw [hcount1, hd1]
          simp only
          rw [hInv.fill_eq]
        · rw [hd1]; simp [hInv.used_eq]
        · rw [hd1]; simp only
          omega

/-! ### The invariant holds on every reachable state -/

theorem filterMap_replicate_none (n : ℕ) :
    (List.replicate n (none : Option Slot)).filterMap id = [] := by
  induction n with
  | zero => rfl
  | succ n ih => simpa [List.replicate_succ, List.filterMap_cons] using ih

theorem getD_replicate_none (n j : ℕ) :
    (List.replicate n (none : Option Slot)).getD j none = none := by
  simp only [List.getD_eq_getElem?_getD, List.getElem?_replicate]
  split <;> rfl

theorem inv_of_start (d : Py2Dict) (hsz : d.size = 8) (hm : d.mask = 7)
    (ht : d.table = List.replicate 8 none) (hf : d.fill = 0) (hu : d.used = 0) :
    Inv d.use64 d := by
  refine ⟨rfl, ⟨3, le_refl 3, by rw [hsz]; rfl⟩, by rw [hm, hsz], ?_, ?_, by rw [hu, hf],
    ?_, ?_, ?_, ?_⟩
  · rw [ht, hsz]; simp
  · rw [hf, ht, filterMap_replicate_none]; rfl
  · rw [hf, hsz]; norm_num
  · rw [ht, filterMap_replicate_none]; exact List.nodup_nil
  · intro s hs; rw [ht, filterMap_replicate_none] at hs; simp at hs
  · intro j s hs
    rw [ht, getD_replicate_none] at hs
    exact Option.noConfusion hs

theorem inv_fresh (u : Bool) : Inv u (fresh u) :=
  inv_of_start (fresh u) rfl rfl rfl rfl rfl

theorem inv_mk (bits : ℕ) : Inv (mkPy2Dict bits).use64 (mkPy2Dict bits) :=
  inv_of_start (mkPy2Dict bits) rfl rfl rfl rfl rfl

theorem reachable_inv {u : Bool} {d : Py2Dict} (h : Reachable u d) : Inv u d := by
  induction h with
  | init => exact inv_fresh u
  | @step d d' key hr hset ih =>
      obtain ⟨d'', heq, hinv'', -⟩ := set_spec u d key ih
      rw [heq] at hset
      obtain rfl : d'' = d' := by injection hset
      exact hinv''

/-! ### C1: the hash functions compute the spec's formula -/

theorem xor_mod_two_pow (a b n : ℕ) :
    (a ^^^ b) % 2 ^ n = (a % 2 ^ n) ^^^ (b % 2 ^ n) := by
  apply Nat.eq_of_testBit_eq
  intro i
  simp only [Nat.testBit_mod_two_pow, Nat.testBit_xor]
  by_cases h : i < n <;> simp [h]

theorem hash64_eq_spec (s : Key) : py2Hash64 s = hashSpec 64 s := by
  by_cases h0 : s.length = 0
  · simp [py2Hash64, hashSpec, h0]
  · simp only [py2Hash64, hashSpec, if_neg h0]
    have e : (fun (x c : ℕ) => (((1000003 * x) % 2 ^ 64) ^^^ c) % 2 ^ 64)
        = (fun (x c : ℕ) => (((x * 1000003) % 2 ^ 64) ^^^ c) % 2 ^ 64) := by
      funext x c
      rw [mul_comm]
    rw [e]

theorem hash32_fold_eq (l : List ℕ) :
    ∀ x : ℕ, x < 2 ^ 32 →
    l.foldl (fun x c => ((1000003 * x) % 2 ^ 32) ^^^ (c % 2 ^ 32)) x
      = l.foldl (fun x c => (((x * 1000003) % 2 ^ 32) ^^^ c) % 2 ^ 32) x ∧
    l.foldl (fun x c => ((1000003 * x) % 2 ^ 32) ^^^ (c % 2 ^ 32)) x < 2 ^ 32 := by
  induction l with
  | nil => intro x hx; exact ⟨rfl, hx⟩
  | cons c tl ih =>
      intro x hx
      have hlt : ((1000003 * x) % 2 ^ 32) ^^^ (c % 2 ^ 32) < 2 ^ 32 :=
        Nat.xor_lt_two_pow (Nat.mod_lt _ (by norm_num)) (Nat.mod_lt _ (by norm_num))
      have estep : (((x * 1000003) % 2 ^ 32) ^^^ c) % 2 ^ 32
          = ((1000003 * x) % 2 ^ 32) ^^^ (c % 2 ^ 32) := by
        rw [xor_mod_two_pow, Nat.mod_mod_of_dvd _ (dvd_refl _), mul_comm]
      obtain ⟨h1, h2⟩ := ih _ hlt
      simp only [List.foldl_cons]
      rw [estep]
      exact ⟨h1, h2⟩

theorem hash32_eq_spec (s : Key) : py2Hash32 s = hashSpec 32 s := by
  by_cases h0 : s.length = 0
  · simp [py2Hash32, hashSpec, h0]
  · simp only [py2Hash32, hashSpec, if_neg h0]
    have hx0 : (s.headI * 2 ^ 7) % 2 ^ 32 < 2 ^ 32 := Nat.mod_lt _ (by norm_num)
    obtain ⟨hfold, hlt⟩ := hash32_fold_eq s ((s.headI * 2 ^ 7) % 2 ^ 32) hx0
    rw [← hfold]
    have hv : ((s.foldl (fun x c => ((1000003 * x) % 2 ^ 32) ^^^ (c % 2 ^ 32))
          ((s.headI * 2 ^ 7) % 2 ^ 32)) ^^^ (s.length % 2 ^ 32)) % 2 ^ 32
        = ((s.foldl (fun x c => ((1000003 * x) % 2 ^ 32) ^^^ (c % 2 ^ 32))
          ((s.headI * 2 ^ 7) % 2 ^ 32)) ^^^ s.length) % 2 ^ 32 := by
      rw [xor_mod_two_pow, xor_mod_two_pow, Nat.mod_mod_of_dvd _ (dvd_refl _)]
    have efin : toSigned 32
        ((s.foldl (fun x c => ((1000003 * x) % 2 ^ 32) ^^^ (c % 2 ^ 32))
          ((s.headI * 2 ^ 7) % 2 ^ 32)) ^^^ (s.length % 2 ^ 32))
        = toSigned 32
        ((s.foldl (fun x c => ((1000003 * x) % 2 ^ 32) ^^^ (c % 2 ^ 32))
          ((s.headI * 2 ^ 7) % 2 ^ 32)) ^^^ s.length) := by
      unfold toSigned
      rw [hv]
    rw [efin]

theorem hashSpec_ne_neg_one (w : ℕ) (s : Key) : hashSpec w s ≠ -1 := by
  unfold hashSpec
  split
  · norm_num
  · simp only
    split
    · norm_num
    · assumption

/-- C1: for both widths the hash equals the spec's formula (seed
`c[0] << 7`, multiply-by-1000003-then-xor loop over all indices with
truncation at every step, final xor with the length read as a signed
`w`-bit value, `-1` remapped to `-2`), and in particular never returns
`-1`. -/
theorem claim_c1 (s : Key) :
    py2Hash64 s = hashSpec 64 s ∧ py2Hash32 s = hashSpec 32 s ∧
    py2Hash64 s ≠ -1 ∧ py2Hash32 s ≠ -1 := by
  refine ⟨hash64_eq_spec s, hash32_eq_spec s, ?_, ?_⟩
  · rw [hash64_eq_spec s]; exact hashSpec_ne_neg_one 64 s
  · rw [hash32_eq_spec s]; exact hashSpec_ne_neg_one 32 s

/-- C2: on any table satisfying the invariant, `_findSlot` returns the
first slot of the legacy probe sequence (initial index `h & mask`,
`perturb` starting at the unsigned pattern of `h` and shifted right 5 bits
per step, step `i := (i*5 + perturb + 1) & mask`) that is empty or holds
an equal key; when that slot is empty and no resize triggers, `set`
stores `(key, hash)` exactly there. -/
theorem claim_c2 (u : Bool) (d : Py2Dict) (key : Key) (hInv : Inv u d) :
    (∀ h n, probeSeq d.mask h 0 = h &&& d.mask ∧
       probeSeq d.mask h (n + 1) =
         (probeSeq d.mask h n * 5 + h >>> (5 * n) + 1) &&& d.mask) ∧
    ∃ j, d.findSlot key (hashW u key) =
        some (probeSeq d.mask (ubits u (hashW u key)) j) ∧
      slotGood d.table key (probeSeq d.mask (ubits u (hashW u key)) j) ∧
      (∀ m, m < j →
         ¬ slotGood d.table key (probeSeq d.mask (ubits u (hashW u key)) m)) ∧
      (d.table.getD (probeSeq d.mask (ubits u (hashW u key)) j) none = none →
        ¬ d.size * 2 ≤ (d.fill + 1) * 3 →
        ∀ d', d.set key = some d' →
          d'.table.getD (probeSeq d.mask (ubits u (hashW u key)) j) none =
            some ⟨key, hashW u key⟩) := by
  obtain rfl : d.use64 = u := hInv.use_eq
  refine ⟨fun h n => ⟨rfl, rfl⟩, ?_⟩
  obtain ⟨kk, hkk, hszpow⟩ := hInv.size_pow
  have hroom : (d.table.filterMap id).length < d.size := by
    have h1 := hInv.load_lt
    have h2 := hInv.fill_eq
    omega
  obtain ⟨j, hfs, hgood, hmin⟩ :=
    findSlot_success d key (hashW d.use64 key) hszpow hInv.mask_eq hInv.len_eq hroom
  have hilt : probeSeq d.mask (ubits d.use64 (hashW d.use64 key)) j < d.table.length := by
    have h1 := probeSeq_le_mask d.mask (ubits d.use64 (hashW d.use64 key)) j
    have h2 := hInv.mask_eq
    have h3 : 0 < d.size := by rw [hszpow]; positivity
    rw [hInv.len_eq]
    omega
  refine ⟨j, hfs, hgood, hmin, ?_⟩
  intro hempty htrig d' hset'
  have hred : d.set key = some { d with
      table := d.table.set (probeSeq d.mask (ubits d.use64 (hashW d.use64 key)) j) (some ⟨key, hashW d.use64 key⟩),
      fill := d.fill + 1, used := d.used + 1 } := by
    simp only [Py2Dict.set, hfs, hempty, if_neg htrig]
  rw [hred] at hset'
  obtain rfl : ({ d with
      table := d.table.set (probeSeq d.mask (ubits d.use64 (hashW d.use64 key)) j) (some ⟨key, hashW d.use64 key⟩),
      fill := d.fill + 1, used := d.used + 1 } : Py2Dict) = d' := by
    injection hset'
  exact getD_set_self _ _ _ hilt

/-- C10: every reachable state keeps `occupied * 3 < capacity * 2`, so an
empty slot always exists, every insertion succeeds (the probe loop finds
an empty or matching slot within its fuel), and once the perturbation is
gone the map `i ↦ 5*i + 1` modulo the power-of-two capacity cycles
through all slot indices. -/
theorem claim_c10 (u : Bool) (d : Py2Dict) (hr : Reachable u d) :
    d.fill * 3 < d.size * 2 ∧
    (∃ e, e < d.size ∧ d.table.getD e none = none) ∧
    (∀ key, ∃ d', d.set key = some d') ∧
    (∀ k' x y, d.size = 2 ^ k' → x < d.size → y < d.size →
       ∃ m, m < d.size ∧ (lcgStep k')^[m] x = y) := by
  have hInv := reachable_inv hr
  refine ⟨hInv.load_lt, ?_, ?_, ?_⟩
  · obtain ⟨e, he, hnone⟩ := exists_none_of_count_lt d.table (by
      rw [hInv.len_eq]
      have h1 := hInv.load_lt
      have h2 := hInv.fill_eq
      omega)
    exact ⟨e, by rw [← hInv.len_eq]; exact he, hnone⟩
  · intro key
    obtain ⟨d', h, -, -⟩ := set_spec u d key hInv
    exact ⟨d', h⟩
  · intro k' x y hsz hx hy
    obtain ⟨m, hm, heq⟩ := lcg_iter_surj k' x y (by rwa [hsz] at hx) (by rwa [hsz] at hy)
    exact ⟨m, by rwa [← hsz] at hm, heq⟩

/-- Witness for C2 at the fresh 64-bit dict and the one-character key
`"a"`. -/
theorem claim_c2_witness :
    (∀ h n, probeSeq (fresh true).mask h 0 = h &&& (fresh true).mask ∧
       probeSeq (fresh true).mask h (n + 1) =
         (probeSeq (fresh true).mask h n * 5 + h >>> (5 * n) + 1) &&& (fresh true).mask) ∧
    ∃ j, (fresh true).findSlot [97] (hashW true [97]) =
        some (probeSeq (fresh true).mask (ubits true (hashW true [97])) j) ∧
      slotGood (fresh true).table [97]
        (probeSeq (fresh true).mask (ubits true (hashW true [97])) j) ∧
      (∀ m, m < j → ¬ slotGood (fresh true).table [97]
         (probeSeq (fresh true).mask (ubits true (hashW true [97])) m)) ∧
      ((fresh true).table.getD
          (probeSeq (fresh true).mask (ubits true (hashW true [97])) j) none = none →
        ¬ (fresh true).size * 2 ≤ ((fresh true).fill + 1) * 3 →
        ∀ d', (fresh true).set [97] = some d' →
          d'.table.getD
              (probeSeq (fresh true).mask (ubits true (hashW true [97])) j) none =
            some ⟨[97], hashW true [97]⟩) :=
  claim_c2 true (fresh true) [97] (inv_fresh true)

/-- Witness for C10 at the fresh 64-bit dict. -/
theorem claim_c10_witness :
    (fresh true).fill * 3 < (fresh true).size * 2 ∧
    (∃ e, e < (fresh true).size ∧ (fresh true).table.getD e none = none) ∧
    (∀ key, ∃ d', (fresh true).set key = some d') ∧
    (∀ k' x y, (fresh true).size = 2 ^ k' → x < (fresh true).size →
       y < (fresh true).size →
       ∃ m, m < (fresh true).size ∧ (lcgStep k')^[m] x = y) :=
  claim_c10 true (fresh true) (Reachable.init)

/-- C3: on reachable states, an insertion resizes exactly when the
post-insertion occupied count satisfies `occupied * 3 >= capacity * 2`;
the resize picks `minused = 4 * used` (post-insertion used-count) up to
50000 and `2 * used` beyond, and the new capacity is the smallest power
of two strictly greater than `minused`, never smaller than 8. -/
theorem claim_c3 (u : Bool) (d : Py2Dict) (key : Key) (d' : Py2Dict)
    (hr : Reachable u d) (hset : d.set key = some d') :
    ((d'.size ≠ d.size) ↔
       d.size * 2 ≤ (if key ∈ d.keysList then d.fill else d.fill + 1) * 3) ∧
    (d.size * 2 ≤ (if key ∈ d.keysList then d.fill else d.fill + 1) * 3 →
       d'.size = growSize
         (if d.used + 1 ≤ 50000 then 4 * (d.used + 1) else 2 * (d.used + 1)) ∧
       (∃ b, d'.size = 2 ^ b) ∧
       (if d.used + 1 ≤ 50000 then 4 * (d.used + 1) else 2 * (d.used + 1)) < d'.size ∧
       (∀ c b, c = 2 ^ b →
          (if d.used + 1 ≤ 50000 then 4 * (d.used + 1) else 2 * (d.used + 1)) < c →
          d'.size ≤ c)) ∧
    8 ≤ d'.size := by
  have hInv := reachable_inv hr
  obtain ⟨d'', heq, hinv'', hle, hcase⟩ := set_spec u d key hInv
  rw [heq] at hset
  have hdd : d'' = d' := by injection hset
  rw [hdd] at hinv'' hle hcase
  have h8' : 8 ≤ d'.size := by
    obtain ⟨b, hb, hbe⟩ := hinv''.size_pow
    rw [hbe]
    calc (8 : ℕ) = 2 ^ 3 := by norm_num
      _ ≤ 2 ^ b := Nat.pow_le_pow_right (by norm_num) hb
  have h8 : 8 ≤ d.size := by
    obtain ⟨b, hb, hbe⟩ := hInv.size_pow
    rw [hbe]
    calc (8 : ℕ) = 2 ^ 3 := by norm_num
      _ ≤ 2 ^ b := Nat.pow_le_pow_right (by norm_num) hb
  have hue : d.used = d.fill := hInv.used_eq
  rcases hcase with ⟨hmem, rfl⟩ | ⟨hmem, hperm, hfill, hused, htrigimp, hntrigimp⟩
  · rw [if_pos hmem]
    have hload := hInv.load_lt
    exact ⟨⟨fun hne => absurd rfl hne, fun hc => by omega⟩, fun hc => by omega, h8'⟩
  · rw [if_neg hmem]
    have hminused : (if d.used + 1 ≤ 50000 then 4 * (d.used + 1) else 2 * (d.used + 1))
        = (if d.fill + 1 ≤ 50000 then 4 * (d.fill + 1) else 2 * (d.fill + 1)) := by
      rw [hue]
    by_cases htrig : d.size * 2 ≤ (d.fill + 1) * 3
    · obtain ⟨hlt, hsz⟩ := htrigimp htrig
      have hm24 : 24 ≤ (if d.fill + 1 ≤ 50000 then 4 * (d.fill + 1)
          else 2 * (d.fill + 1)) := by
        have hf6 : 6 ≤ d.fill + 1 := by omega
        split <;> omega
      refine ⟨⟨fun _ => htrig, fun _ => by omega⟩, fun _ => ?_, h8'⟩
      refine ⟨by rw [hminused]; exact hsz, ?_, ?_, ?_⟩
      · obtain ⟨b, -, hbe⟩ := hinv''.size_pow
        exact ⟨b, hbe⟩
      · rw [hminused, hsz]
        exact growSize_gt _
      · intro c b hcb hlt'
        rw [hminused] at hlt'
        rw [hsz, hcb]
        rw [hcb] at hlt'
        have hb3 : 3 ≤ b := by
          by_contra hb3
          have hble : (2 : ℕ) ^ b ≤ 2 ^ 2 :=
            Nat.pow_le_pow_right (by norm_num) (by omega)
          have : (2 : ℕ) ^ 2 = 4 := by norm_num
          omega
        exact growSize_le hb3 hlt'
    · have hszeq := hntrigimp htrig
      exact ⟨⟨fun hne => absurd hszeq hne, fun hc => absurd hc htrig⟩,
        fun hc => absurd hc htrig, h8'⟩

/-- C4: a resize replays the stored `(key, hash)` pairs into the fresh
slot array by folding `_insertClean` over the non-empty slots of the old
array in ascending old-index order, and afterwards both counters equal
the number of re-inserted pairs (whose multiset is preserved). -/
theorem claim_c4 (d : Py2Dict)
    (hlen : d.table.length = d.size)
    (hused : d.used = (d.table.filterMap id).length) :
    ∃ d', d.resize = some d' ∧
      d.resize = (d.table.filterMap id).foldlM
        (fun (a : Py2Dict) s => a.insertClean s.key s.hash)
        { d with table := List.replicate (growSize (if d.used ≤ 50000 then 4 * d.used else 2 * d.used)) none, size := growSize (if d.used ≤ 50000 then 4 * d.used else 2 * d.used), mask := growSize (if d.used ≤ 50000 then 4 * d.used else 2 * d.used) - 1, fill := 0, used := 0 } ∧
      d'.fill = (d.table.filterMap id).length ∧
      d'.used = (d.table.filterMap id).length ∧
      (d'.table.filterMap id).Perm (d.table.filterMap id) := by
  obtain ⟨d', hd', hu', hs', hpow', hm', hl', hf', hus', hp', hpl', hload'⟩ :=
    resize_spec d.use64 d rfl hlen hused
  refine ⟨d', hd', ?_, hf', hus', hp'⟩
  show d.resize = _
  unfold Py2Dict.resize
  exact foldlM_skip_none _ d.table _

/-- C9: on every reachable state the capacity is a power of two at least
8, the mask is `capacity - 1`, a fresh table starts at capacity 8, and
an insertion never shrinks the capacity — when the capacity changes at
all it strictly grows. -/
theorem claim_c9 (u : Bool) (d : Py2Dict) (hr : Reachable u d) :
    (∃ k, 3 ≤ k ∧ d.size = 2 ^ k) ∧ 8 ≤ d.size ∧ d.mask = d.size - 1 ∧
    (fresh u).size = 8 ∧
    (∀ key d', d.set key = some d' →
       d.size ≤ d'.size ∧ (d'.size ≠ d.size → d.size < d'.size)) := by
  have hInv := reachable_inv hr
  have h8 : 8 ≤ d.size := by
    obtain ⟨b, hb, hbe⟩ := hInv.size_pow
    rw [hbe]
    calc (8 : ℕ) = 2 ^ 3 := by norm_num
      _ ≤ 2 ^ b := Nat.pow_le_pow_right (by norm_num) hb
  refine ⟨hInv.size_pow, h8, hInv.mask_eq, rfl, ?_⟩
  intro key d' hset
  obtain ⟨d'', heq, hinv'', hle, -⟩ := set_spec u d key hInv
  rw [heq] at hset
  obtain rfl : d'' = d' := by injection hset
  exact ⟨hle, fun hne => lt_of_le_of_ne hle (Ne.symm hne)⟩

/-- Witness for C3: inserting `"a"` into a fresh 64-bit dict (no resize
triggers there: `1 * 3 < 8 * 2`). -/
theorem claim_c3_witness :
    (((⟨true, 8, 7, [some ⟨[97], (12416037344 : ℤ)⟩, none, none, none, none, none, none, none], 1, 1⟩ : Py2Dict).size ≠ (fresh true).size) ↔
       (fresh true).size * 2 ≤
         (if [97] ∈ (fresh true).keysList then (fresh true).fill
          else (fresh true).fill + 1) * 3) ∧
    ((fresh true).size * 2 ≤
        (if [97] ∈ (fresh true).keysList then (fresh true).fill
         else (fresh true).fill + 1) * 3 →
       (⟨true, 8, 7, [some ⟨[97], (12416037344 : ℤ)⟩, none, none, none, none, none, none, none], 1, 1⟩ : Py2Dict).size = growSize
         (if (fresh true).used + 1 ≤ 50000 then 4 * ((fresh true).used + 1)
          else 2 * ((fresh true).used + 1)) ∧
       (∃ b, (⟨true, 8, 7, [some ⟨[97], (12416037344 : ℤ)⟩, none, none, none, none, none, none, none], 1, 1⟩ : Py2Dict).size = 2 ^ b) ∧
       (if (fresh true).used + 1 ≤ 50000 then 4 * ((fresh true).used + 1)
        else 2 * ((fresh true).used + 1)) <
         (⟨true, 8, 7, [some ⟨[97], (12416037344 : ℤ)⟩, none, none, none, none, none, none, none], 1, 1⟩ : Py2Dict).size ∧
       (∀ c b, c = 2 ^ b →
          (if (fresh true).used + 1 ≤ 50000 then 4 * ((fresh true).used + 1)
           else 2 * ((fresh true).used + 1)) < c →
          (⟨true, 8, 7, [some ⟨[97], (12416037344 : ℤ)⟩, none, none, none, none, none, none, none], 1, 1⟩ : Py2Dict).size ≤ c)) ∧
    8 ≤ (⟨true, 8, 7, [some ⟨[97], (12416037344 : ℤ)⟩, none, none, none, none, none, none, none], 1, 1⟩ : Py2Dict).size :=
  claim_c3 true (fresh true) [97]
    ⟨true, 8, 7, [some ⟨[97], (12416037344 : ℤ)⟩, none, none, none, none, none, none, none], 1, 1⟩
    Reachable.init (by decide)

/-- Witness for C4 at the fresh 64-bit dict (an empty replay). -/
theorem claim_c4_witness :
    ∃ d', (fresh true).resize = some d' ∧
      (fresh true).resize = ((fresh true).table.filterMap id).foldlM
        (fun (a : Py2Dict) s => a.insertClean s.key s.hash)
        { fresh true with table := List.replicate (growSize (if (fresh true).used ≤ 50000 then 4 * (fresh true).used else 2 * (fresh true).used)) none, size := growSize (if (fresh true).used ≤ 50000 then 4 * (fresh true).used else 2 * (fresh true).used), mask := growSize (if (fresh true).used ≤ 50000 then 4 * (fresh true).used else 2 * (fresh true).used) - 1, fill := 0, used := 0 } ∧
      d'.fill = ((fresh true).table.filterMap id).length ∧
      d'.used = ((fresh true).table.filterMap id).length ∧
      (d'.table.filterMap id).Perm ((fresh true).table.filterMap id) :=
  claim_c4 (fresh true) rfl rfl

/-- Witness for C9 at the fresh 64-bit dict. -/
theorem claim_c9_witness :
    (∃ k, 3 ≤ k ∧ (fresh true).size = 2 ^ k) ∧ 8 ≤ (fresh true).size ∧
    (fresh true).mask = (fresh true).size - 1 ∧
    (fresh true).size = 8 ∧
    (∀ key d', (fresh true).set key = some d' →
       (fresh true).size ≤ d'.size ∧
       (d'.size ≠ (fresh true).size → (fresh true).size < d'.size)) :=
  claim_c9 true (fresh true) Reachable.init

/-- Counterexample to C6: the constructor accepts the illegal width 16
without any contract violation and silently behaves exactly like the
64-bit variant (`_use64 = bits !== 32` never validates `bits`). -/
theorem claim_c6_counterexample :
    mkPy2Dict 16 = mkPy2Dict 64 ∧
    py2DictOrder [[97], [98]] 16 = some [[97], [98]] := by
  constructor
  · rfl
  · rfl

/-- C6 (amended): a requested width other than 32 is not rejected — the
constructor silently selects the 64-bit variant, so every operation under
any width `bits ≠ 32` behaves identically to width 64. -/
theorem claim_c6 (bits : ℕ) (hb : bits ≠ 32) :
    mkPy2Dict bits = mkPy2Dict 64 ∧
    ∀ xs : List Key, py2DictOrder xs bits = py2DictOrder xs 64 := by
  have he : mkPy2Dict bits = mkPy2Dict 64 := by
    unfold mkPy2Dict
    congr 1
    simp [hb]
  exact ⟨he, fun xs => by unfold py2DictOrder; rw [he]⟩

/-- Witness for C6 (amended) at the illegal width 16. -/
theorem claim_c6_witness :
    mkPy2Dict 16 = mkPy2Dict 64 ∧
    ∀ xs : List Key, py2DictOrder xs 16 = py2DictOrder xs 64 :=
  claim_c6 16 (by decide)

/-! ### C7/C8: inserting a list of keys -/

theorem mem_dedupSeen (x : Key) :
    ∀ (xs seen : List Key), x ∈ dedupSeen seen xs ↔ x ∈ xs ∧ x ∉ seen := by
  intro xs
  induction xs with
  | nil => intro seen; simp [dedupSeen]
  | cons y ys ih =>
      intro seen
      unfold dedupSeen
      by_cases hy : y ∈ seen
      · rw [if_pos hy, ih seen]
        constructor
        · rintro ⟨h1, h2⟩
          exact ⟨List.mem_cons_of_mem y h1, h2⟩
        · rintro ⟨h1, h2⟩
          rcases List.mem_cons.mp h1 with rfl | h1
          · exact absurd hy h2
          · exact ⟨h1, h2⟩
      · rw [if_neg hy]
        constructor
        · intro hmem
          rcases List.mem_cons.mp hmem with rfl | hmem
          · exact ⟨List.mem_cons_self x ys, hy⟩
          · obtain ⟨h1, h2⟩ := (ih (y :: seen)).mp hmem
            refine ⟨List.mem_cons_of_mem y h1, ?_⟩
            intro hc
            exact h2 (List.mem_cons_of_mem y hc)
        · rintro ⟨h1, h2⟩
          rcases List.mem_cons.mp h1 with rfl | h1
          · exact List.mem_cons_self x _
          · by_cases hxy : x = y
            · subst hxy; exact List.mem_cons_self x _
            · refine List.mem_cons_of_mem y ((ih (y :: seen)).mpr ⟨h1, ?_⟩)
              intro hc
              rcases List.mem_cons.mp hc with h | h
              · exact hxy h
              · exact h2 h

theorem nodup_dedupSeen :
    ∀ (xs seen : List Key), (dedupSeen seen xs).Nodup := by
  intro xs
  induction xs with
  | nil => intro seen; simp [dedupSeen]
  | cons y ys ih =>
      intro seen
      unfold dedupSeen
      split
      · exact ih seen
      · refine List.nodup_cons.mpr ⟨?_, ih (y :: seen)⟩
        intro hmem
        obtain ⟨-, h2⟩ := (mem_dedupSeen y ys (y :: seen)).mp hmem
        exact h2 (List.mem_cons_self y seen)

theorem keysList_nodup {u : Bool} {d : Py2Dict} (hInv : Inv u d) :
    d.keysList.Nodup := by
  rw [keysList_eq_map]
  exact hInv.nodup

theorem setFold_spec (u : Bool) :
    ∀ (xs : List Key) (d : Py2Dict), Inv u d →
    ∃ d', List.foldlM (fun (a : Py2Dict) s => a.set s) d xs = some d' ∧ Inv u d' ∧
      ∀ key, key ∈ d'.keysList ↔ key ∈ d.keysList ∨ key ∈ xs := by
  intro xs
  induction xs with
  | nil =>
      intro d hInv
      exact ⟨d, rfl, hInv, fun key => by simp⟩
  | cons x rest ih =>
      intro d hInv
      obtain ⟨d1, heq, hinv1, -, hcase⟩ := set_spec u d x hInv
      have hmem1 : ∀ k, k ∈ d1.keysList ↔ k ∈ d.keysList ∨ k = x := by
        rcases hcase with ⟨hmem, rfl⟩ | ⟨hmem, hperm, -, -, -, -⟩
        · intro k
          constructor
          · exact fun h => Or.inl h
          · rintro (h | rfl)
            · exact h
            · exact hmem
        · intro k
          have hkperm : d1.keysList.Perm (x :: d.keysList) := by
            rw [keysList_eq_map, keysList_eq_map]
            simpa using hperm.map Slot.key
          rw [hkperm.mem_iff, List.mem_cons]
          tauto
      obtain ⟨d', hfold, hinv', hmem'⟩ := ih d1 hinv1
      refine ⟨d', ?_, hinv', ?_⟩
      · simpa [List.foldlM_cons, heq] using hfold
      · intro key
        rw [hmem' key, hmem1 key, List.mem_cons]
        tauto

/-- C7: `py2DictOrder` always succeeds and its output is a permutation of
the first-occurrence deduplication of the input list: the same multiset
of distinct strings, only the order changes. -/
theorem claim_c7 (xs : List Key) (bits : ℕ) :
    ∃ out, py2DictOrder xs bits = some out ∧ out.Perm (dedupF xs) := by
  obtain ⟨d', hfold, hinv', hmem⟩ :=
    setFold_spec (mkPy2Dict bits).use64 xs (mkPy2Dict bits) (inv_mk bits)
  refine ⟨d'.keysList, ?_, ?_⟩
  · unfold py2DictOrder
    rw [hfold]
    rfl
  · unfold dedupF
    rw [List.perm_ext_iff_of_nodup (keysList_nodup hinv') (nodup_dedupSeen xs [])]
    intro a
    rw [hmem a, mem_dedupSeen a xs []]
    have hmk : (mkPy2Dict bits).keysList = [] := rfl
    rw [hmk]
    simp

theorem foldlM_set_cons {d d1 : Py2Dict} {x : Key} (rest : List Key)
    (h : d.set x = some d1) :
    List.foldlM (fun (a : Py2Dict) s => a.set s) d (x :: rest)
      = List.foldlM (fun (a : Py2Dict) s => a.set s) d1 rest := by
  simp [List.foldlM_cons, h]

theorem setFold_dedup (u : Bool) :
    ∀ (xs seen : List Key) (d : Py2Dict), Inv u d →
    (∀ k, k ∈ d.keysList ↔ k ∈ seen) →
    List.foldlM (fun (a : Py2Dict) s => a.set s) d xs
      = List.foldlM (fun (a : Py2Dict) s => a.set s) d (dedupSeen seen xs) := by
  intro xs
  induction xs with
  | nil => intro seen d _ _; rfl
  | cons x rest ih =>
      intro seen d hInv hseen
      obtain ⟨d1, heq, hinv1, -, hcase⟩ := set_spec u d x hInv
      by_cases hx : x ∈ seen
      · have hxk : x ∈ d.keysList := (hseen x).mpr hx
        have hd1 : d1 = d := by
          rcases hcase with ⟨-, rfl⟩ | ⟨hnm, -⟩
          · rfl
          · exact absurd hxk hnm
        rw [foldlM_set_cons rest heq, hd1]
        unfold dedupSeen
        rw [if_pos hx]
        exact ih seen d hInv hseen
      · have hxk : x ∉ d.keysList := fun hc => hx ((hseen x).mp hc)
        rcases hcase with ⟨hmem, -⟩ | ⟨-, hperm, -, -, -, -⟩
        · exact absurd hmem hxk
        have hseen1 : ∀ k, k ∈ d1.keysList ↔ k ∈ x :: seen := by
          intro k
          have hkperm : d1.keysList.Perm (x :: d.keysList) := by
            rw [keysList_eq_map, keysList_eq_map]
            simpa using hperm.map Slot.key
          rw [hkperm.mem_iff, List.mem_cons, List.mem_cons, hseen k]
        unfold dedupSeen
        rw [if_neg hx, foldlM_set_cons rest heq, foldlM_set_cons (dedupSeen (x :: seen) rest) heq]
        exact ih (x :: seen) d1 hinv1 hseen1

/-- C8: `py2DictOrder` is unchanged by first-occurrence deduplication of
its input — re-inserting a key already present leaves the slot array and
both counters untouched, so duplicates cannot affect the output order. -/
theorem claim_c8 (xs : List Key) (bits : ℕ) :
    py2DictOrder xs bits = py2DictOrder (dedupF xs) bits := by
  unfold py2DictOrder dedupF
  rw [setFold_dedup (mkPy2Dict bits).use64 xs [] (mkPy2Dict bits) (inv_mk bits)
    (fun k => by rw [show (mkPy2Dict bits).keysList = [] from rfl])]

/-! ### C5: the six-insert resize scenario -/

theorem insert_fresh_step (u : Bool) (d : Py2Dict) (key : Key) (hInv : Inv u d)
    (hmem : key ∉ d.keysList) (hsmall : ¬ d.size * 2 ≤ (d.fill + 1) * 3) :
    ∃ d', d.set key = some d' ∧ Inv u d' ∧ d'.size = d.size ∧
      d'.fill = d.fill + 1 ∧
      ∀ k', k' ∈ d'.keysList ↔ k' = key ∨ k' ∈ d.keysList := by
  obtain ⟨d', heq, hinv', -, hcase⟩ := set_spec u d key hInv
  rcases hcase with ⟨hm, -⟩ | ⟨-, hperm, hfill, -, -, hntrig⟩
  · exact absurd hm hmem
  refine ⟨d', heq, hinv', hntrig hsmall, hfill, ?_⟩
  intro k'
  have hkperm : d'.keysList.Perm (key :: d.keysList) := by
    rw [keysList_eq_map, keysList_eq_map]
    simpa using hperm.map Slot.key
  rw [hkperm.mem_iff, List.mem_cons]

theorem insert_trigger_step (u : Bool) (d : Py2Dict) (key : Key) (hInv : Inv u d)
    (hmem : key ∉ d.keysList) (htrig : d.size * 2 ≤ (d.fill + 1) * 3) :
    ∃ d', d.set key = some d' ∧ Inv u d' ∧ d'.fill = d.fill + 1 ∧
      d'.size = growSize
        (if d.fill + 1 ≤ 50000 then 4 * (d.fill + 1) else 2 * (d.fill + 1)) := by
  obtain ⟨d', heq, hinv', -, hcase⟩ := set_spec u d key hInv
  rcases hcase with ⟨hm, -⟩ | ⟨-, -, hfill, -, htrigimp, -⟩
  · exact absurd hm hmem
  exact ⟨d', heq, hinv', hfill, (htrigimp htrig).2⟩

/-- C5: inserting six pairwise-distinct strings into a fresh table of
capacity 8 leaves the capacity at 8 through the first five insertions and
triggers exactly one resize on the sixth (`6*3 = 18 >= 8*2 = 16`), ending
at capacity 32 with all six keys stored. -/
theorem claim_c5 (u : Bool) (a b c e f g : Key)
    (hnd : ([a, b, c, e, f, g] : List Key).Nodup) :
    ∃ s1 s2 s3 s4 s5 s6 : Py2Dict,
      (fresh u).set a = some s1 ∧ s1.set b = some s2 ∧ s2.set c = some s3 ∧
      s3.set e = some s4 ∧ s4.set f = some s5 ∧ s5.set g = some s6 ∧
      s1.size = 8 ∧ s2.size = 8 ∧ s3.size = 8 ∧ s4.size = 8 ∧ s5.size = 8 ∧
      s6.size = 32 ∧ s6.fill = 6 := by
  have hba : b ≠ a := by intro h; subst h; simp at hnd
  have hca : c ≠ a := by intro h; subst h; simp at hnd
  have hcb : c ≠ b := by intro h; subst h; simp at hnd
  have hea : e ≠ a := by intro h; subst h; simp at hnd
  have heb : e ≠ b := by intro h; subst h; simp at hnd
  have hec : e ≠ c := by intro h; subst h; simp at hnd
  have hfa : f ≠ a := by intro h; subst h; simp at hnd
  have hfb : f ≠ b := by intro h; subst h; simp at hnd
  have hfc : f ≠ c := by intro h; subst h; simp at hnd
  have hfe : f ≠ e := by intro h; subst h; simp at hnd
  have hga : g ≠ a := by intro h; subst h; simp at hnd
  have hgb : g ≠ b := by intro h; subst h; simp at hnd
  have hgc : g ≠ c := by intro h; subst h; simp at hnd
  have hge : g ≠ e := by intro h; subst h; simp at hnd
  have hgf : g ≠ f := by intro h; subst h; simp at hnd
  have hmem0 : (fresh u).keysList = [] := rfl
  have hfr : (fresh u).size = 8 ∧ (fresh u).fill = 0 := ⟨rfl, rfl⟩
  obtain ⟨s1, e1, i1, sz1, f1, m1⟩ := insert_fresh_step u (fresh u) a (inv_fresh u)
    (by rw [hmem0]; simp) (by rw [hfr.1, hfr.2]; omega)
  have hsz1 : s1.size = 8 := by rw [sz1, hfr.1]
  have hf1 : s1.fill = 1 := by rw [f1, hfr.2]
  obtain ⟨s2, e2, i2, sz2, f2, m2⟩ := insert_fresh_step u s1 b i1
    (by simp only [m1, hmem0, List.not_mem_nil, or_false]; exact hba)
    (by rw [hsz1, hf1]; omega)
  have hsz2 : s2.size = 8 := by rw [sz2, hsz1]
  have hf2 : s2.fill = 2 := by rw [f2, hf1]
  obtain ⟨s3, e3, i3, sz3, f3, m3⟩ := insert_fresh_step u s2 c i2
    (by simp only [m2, m1, hmem0, List.not_mem_nil, or_false]
        push_neg
        exact ⟨hcb, hca⟩)
    (by rw [hsz2, hf2]; omega)
  have hsz3 : s3.size = 8 := by rw [sz3, hsz2]
  have hf3 : s3.fill = 3 := by rw [f3, hf2]
  obtain ⟨s4, e4, i4, sz4, f4, m4⟩ := insert_fresh_step u s3 e i3
    (by simp only [m3, m2, m1, hmem0, List.not_mem_nil, or_false]
        push_neg
        exact ⟨hec, heb, hea⟩)
    (by rw [hsz3, hf3]; omega)
  have hsz4 : s4.size = 8 := by rw [sz4, hsz3]
  have hf4 : s4.fill = 4 := by rw [f4, hf3]
  obtain ⟨s5, e5, i5, sz5, f5, m5⟩ := insert_fresh_step u s4 f i4
    (by simp only [m4, m3, m2, m1, hmem0, List.not_mem_nil, or_false]
        push_neg
        exact ⟨hfe, hfc, hfb, hfa⟩)
    (by rw [hsz4, hf4]; omega)
  have hsz5 : s5.size = 8 := by rw [sz5, hsz4]
  have hf5 : s5.fill = 5 := by rw [f5, hf4]
  obtain ⟨s6, e6, i6, f6, sz6⟩ := insert_trigger_step u s5 g i5
    (by simp only [m5, m4, m3, m2, m1, hmem0, List.not_mem_nil, or_false]
        push_neg
        exact ⟨hgf, hge, hgc, hgb, hga⟩)
    (by rw [hsz5, hf5]; omega)
  have hsz6 : s6.size = 32 := by
    rw [sz6, hf5]
    decide
  have hf6 : s6.fill = 6 := by rw [f6, hf5]
  exact ⟨s1, s2, s3, s4, s5, s6, e1, e2, e3, e4, e5, e6,
    hsz1, hsz2, hsz3, hsz4, hsz5, hsz6, hf6⟩

/-- Witness for C5 with the six one-character strings `"a"`–`"f"` under
the 64-bit width. -/
theorem claim_c5_witness :
    ∃ s1 s2 s3 s4 s5 s6 : Py2Dict,
      (fresh true).set [97] = some s1 ∧ s1.set [98] = some s2 ∧
      s2.set [99] = some s3 ∧ s3.set [100] = some s4 ∧
      s4.set [101] = some s5 ∧ s5.set [102] = some s6 ∧
      s1.size = 8 ∧ s2.size = 8 ∧ s3.size = 8 ∧ s4.size = 8 ∧ s5.size = 8 ∧
      s6.size = 32 ∧ s6.fill = 6 :=
  claim_c5 true [97] [98] [99] [100] [101] [102] (by decide)

end SpecGen
